import Mathlib

/-!
A verification development for the SloppyVM reference semantics
(`src/sloppyvm/spec.py`), its expression compiler (`expression.py`),
the enumeration-based test generation (`src/sloppyvm/fuzzing/enumeration.py`)
and the differential-comparison predicate (`src/sloppyvm/fuzzing/fuzzer.py`).

Modelling conventions:
* Python `bytes` buffers are `List Nat` with every element below 256 (stated
  as a hypothesis where a proof needs it).
* Machine integers are `Nat` with explicit `% 2 ^ 64` where Python masks with
  `& UINT64_MAX`, and byte extraction uses an explicit big-endian byte list.
* The Python VM stack is a Python list holding the stack bottom-first, with
  `append`/`pop` acting on its end (the stack top).  Here the stack is a
  `List Nat` holding the stack TOP-FIRST: Python `stack.pop()` is taking the
  head, `stack.append v` is consing `v`.  This is a bijective renaming of the
  same state; "depth" is `List.length` in both.
* Python exceptions become `Except VMError`; the exception message strings
  (which no claim inspects) are elided, only the exception class is kept.
  `VMState.copy` value semantics is automatic for pure functions.
* The `execute` dispatch over a closed inductive has no "unknown instruction
  type" fallthrough: that Python branch is unreachable for values of the
  `Instruction` union and has no counterpart on a closed sum type.
-/

namespace SloppyVM

/-- `UINT64_MAX = (1 <<< 64) - 1` from `spec.py`. -/
def UINT64_MAX : Nat := 2 ^ 64 - 1

/-- `UINT32_MAX = 0xFFFFFFFF` from `expression.py`. -/
def UINT32_MAX : Nat := 0xFFFFFFFF

/-- Opcode constants from `spec.py`. -/
def OP_PUSH4 : Nat := 0x01

def OP_ADD : Nat := 0x02

def OP_MUL : Nat := 0x03

def OP_BYTE : Nat := 0x04

/-- Python `x.to_bytes(n, 'big')`: the `n`-byte big-endian representation
(most-significant byte first).  Python raises `OverflowError` when
`x ≥ 256 ^ n`; this model truncates instead, and theorems that depend on the
byte representation carry the corresponding range hypothesis. -/
def to_bytes_be : Nat → Nat → List Nat
  | 0, _ => []
  | n + 1, x => to_bytes_be n (x / 256) ++ [x % 256]

/-- Python `int.from_bytes(bs, 'big')`. -/
def from_bytes_be (bs : List Nat) : Nat :=
  bs.foldl (fun acc b => 256 * acc + b) 0

/-- The `Instruction` tagged union from `spec.py`: `PUSH4(value)`, `ADD`,
`MUL`, `BYTE`.  The Python `PUSH4.__post_init__` range check on `value`
becomes the predicate `instr_wf` below. -/
inductive Instr where
  | PUSH4 (value : Nat)
  | ADD
  | MUL
  | BYTE
deriving DecidableEq, Repr

/-- The `PUSH4.__post_init__` validation: `0 <= value <= 0xFFFFFFFF`. -/
def instr_wf : Instr → Bool
  | .PUSH4 value => decide (value ≤ UINT32_MAX)
  | _ => true

/-- `serialize_instruction` from `spec.py`: `PUSH4 v ↦ 0x01` followed by the
4-byte big-endian `v`; `ADD ↦ 0x02`; `MUL ↦ 0x03`; `BYTE ↦ 0x04`. -/
def serialize_instruction : Instr → List Nat
  | .PUSH4 value => OP_PUSH4 :: to_bytes_be 4 value
  | .ADD => [OP_ADD]
  | .MUL => [OP_MUL]
  | .BYTE => [OP_BYTE]

/-- `serialize_program` from `spec.py`: concatenation of the per-instruction
encodings, in order. -/
def serialize_program (instructions : List Instr) : List Nat :=
  (instructions.map serialize_instruction).flatten

/-- The two `SloppyVMException` subclasses from `spec.py`; the message text is
elided (no claim inspects it). -/
inductive VMError where
  | InvalidInstruction
  | StackUnderflow
deriving DecidableEq, Repr

/-- `deserialize_instruction(data, offset)` from `spec.py`: fails past the end
of the buffer; reads the opcode byte; for `0x01` requires 4 operand bytes
(`offset + 5 > len(data)` fails as truncated) and decodes them big-endian,
advancing by 5; for `0x02/0x03/0x04` advances by 1; any other opcode fails. -/
def deserialize_instruction (data : List Nat) (offset : Nat) :
    Except VMError (Instr × Nat) :=
  if data.length ≤ offset then .error .InvalidInstruction
  else
    let opcode := data.getD offset 0
    if opcode = OP_PUSH4 then
      if data.length < offset + 5 then .error .InvalidInstruction
      else
        let value := from_bytes_be ((data.drop (offset + 1)).take 4)
        .ok (.PUSH4 value, offset + 5)
    else if opcode = OP_ADD then .ok (.ADD, offset + 1)
    else if opcode = OP_MUL then .ok (.MUL, offset + 1)
    else if opcode = OP_BYTE then .ok (.BYTE, offset + 1)
    else .error .InvalidInstruction

/-- The `while offset < len(data)` loop of `deserialize_program`, with an
explicit fuel so the recursion is structural.  Every successful
`deserialize_instruction` advances the offset by at least one byte, so with
`fuel = data.length` (as `deserialize_program` passes) the fuel-exhaustion
branch is unreachable; the `tot_aux`-style lemmas below carry the invariant
`data.length - offset ≤ fuel`. -/
def deserialize_program_aux (fuel : Nat) (data : List Nat) (offset : Nat) :
    Except VMError (List Instr) :=
  match fuel with
  | 0 => if offset < data.length then .error .InvalidInstruction else .ok []
  | fuel + 1 =>
    if offset < data.length then
      match deserialize_instruction data offset with
      | .error e => .error e
      | .ok (instr, offset') =>
        match deserialize_program_aux fuel data offset' with
        | .error e => .error e
        | .ok rest => .ok (instr :: rest)
    else .ok []

/-- `deserialize_program(data)` from `spec.py`: decode sequentially from
offset 0 until the buffer is exhausted; the first failure aborts the whole
decode. -/
def deserialize_program (data : List Nat) : Except VMError (List Instr) :=
  deserialize_program_aux data.length data 0

/-- `execute(state, instruction)` from `spec.py`, on the top-first stack:
`PUSH4 v` pushes `v`; `ADD`/`MUL` pop `a` (top) and `b`, pushing
`(a + b) % 2 ^ 64` resp. `(a * b) % 2 ^ 64` (Python masks with
`& UINT64_MAX`), raising `StackUnderflow` on depth < 2; `BYTE` pops `i` (top)
and `x`, pushing 0 when `i ≥ 8` and otherwise `x.to_bytes(8,'big')[i]`,
raising `StackUnderflow` on depth < 2. -/
def execute (state : List Nat) : Instr → Except VMError (List Nat)
  | .PUSH4 value => .ok (value :: state)
  | .ADD =>
    match state with
    | a :: b :: rest => .ok ((a + b) % 2 ^ 64 :: rest)
    | _ => .error .StackUnderflow
  | .MUL =>
    match state with
    | a :: b :: rest => .ok ((a * b) % 2 ^ 64 :: rest)
    | _ => .error .StackUnderflow
  | .BYTE =>
    match state with
    | i :: x :: rest =>
      if 8 ≤ i then .ok (0 :: rest)
      else .ok ((to_bytes_be 8 x).getD i 0 :: rest)
    | _ => .error .StackUnderflow

/-- `execute_program(instructions, initial_stack)` from `spec.py`:
left-to-right execution, the first failure aborts the run. -/
def execute_program : List Instr → List Nat → Except VMError (List Nat)
  | [], state => .ok state
  | instr :: rest, state =>
    match execute state instr with
    | .error e => .error e
    | .ok state' => execute_program rest state'

/-- `execute_bytecode(bytecode, initial_stack)` from `spec.py`: deserialize,
then execute. -/
def execute_bytecode (bytecode : List Nat) (initial_stack : List Nat) :
    Except VMError (List Nat) :=
  match deserialize_program bytecode with
  | .error e => .error e
  | .ok instructions => execute_program instructions initial_stack

/-- The `Expr` tagged union from `expression.py`: `Const(value)`,
`Add(left, right)`, `Mul(left, right)`, `Byte(value, index)`.  The
`Const.__post_init__` range check becomes the predicate `expr_wf` below. -/
inductive Expr where
  | Const (value : Nat)
  | Add (left right : Expr)
  | Mul (left right : Expr)
  | Byte (value index : Expr)
deriving DecidableEq, Repr

/-- The `Const.__post_init__` validation `0 ≤ value ≤ UINT32_MAX`, applied at
every `Const` leaf of the tree. -/
def expr_wf : Expr → Bool
  | .Const value => decide (value ≤ UINT32_MAX)
  | .Add left right => expr_wf left && expr_wf right
  | .Mul left right => expr_wf left && expr_wf right
  | .Byte value index => expr_wf value && expr_wf index

/-- `compile_expr_to_instructions` from `expression.py`: post-order traversal,
operands before operator. -/
def compile_expr_to_instructions : Expr → List Instr
  | .Const value => [.PUSH4 value]
  | .Add left right =>
    compile_expr_to_instructions left ++ compile_expr_to_instructions right ++ [.ADD]
  | .Mul left right =>
    compile_expr_to_instructions left ++ compile_expr_to_instructions right ++ [.MUL]
  | .Byte value index =>
    compile_expr_to_instructions value ++ compile_expr_to_instructions index ++ [.BYTE]

/-- `compile_expr` from `expression.py`: compile to instructions, then
serialize. -/
def compile_expr (expr : Expr) : List Nat :=
  serialize_program (compile_expr_to_instructions expr)

/-- `MINIMAL_CONSTANTS` from `enumeration.py`. -/
def MINIMAL_CONSTANTS : List Nat := [0, 1, 7, 8]

/-- `enumerate_expressions(depth, constants)` from `enumeration.py`, with the
generator reified as the list of its yields, in order: depth 0 yields one
`Const c` per `c` in `constants`; depth `d+1` yields, for every `left` then
every `right` from the depth-`d` enumeration, `Add`, `Mul`, `Byte` of the
pair, followed by one `Const c` per `c` in `constants`. -/
def enumerate_expressions : Nat → List Nat → List Expr
  | 0, constants => constants.map .Const
  | depth + 1, constants =>
    let sub_exprs := enumerate_expressions depth constants
    (sub_exprs.flatMap fun left =>
      sub_exprs.flatMap fun right =>
        [.Add left right, .Mul left right, .Byte left right]) ++
    constants.map .Const

/-- `enumerate_stack_underflow_tests` from `enumeration.py`, with the
generator reified as the list of its yields, in order: `ADD`, `MUL`, `BYTE`
alone, then for each value in `MINIMAL_CONSTANTS` each of the three operators
preceded by one `PUSH4`. -/
def enumerate_stack_underflow_tests : List (List Nat) :=
  [serialize_program [.ADD], serialize_program [.MUL], serialize_program [.BYTE]] ++
  MINIMAL_CONSTANTS.flatMap fun value =>
    [serialize_program [.PUSH4 value, .ADD],
     serialize_program [.PUSH4 value, .MUL],
     serialize_program [.PUSH4 value, .BYTE]]

/-- The `ExecutionResult` union from `fuzzer.py`: `Success(stack)`,
`ExceptionThrown(reason)`, `Crash(reason)`. -/
inductive ExecutionResult where
  | Success (stack : List Nat)
  | ExceptionThrown (reason : String)
  | Crash (reason : String)
deriving DecidableEq, Repr

/-- Python `type(expected) == type(actual)` on `ExecutionResult` values:
the two results are built by the same variant. -/
def same_result_type : ExecutionResult → ExecutionResult → Bool
  | .Success _, .Success _ => true
  | .ExceptionThrown _, .ExceptionThrown _ => true
  | .Crash _, .Crash _ => true
  | _, _ => false

/-- Python `isinstance(r, Success)`. -/
def is_success : ExecutionResult → Bool
  | .Success _ => true
  | _ => false

/-- `compare_results(expected, actual)` from
`src/sloppyvm/fuzzing/fuzzer.py`:
`type(expected) == type(actual) and (not isinstance(expected, Success) or
expected == actual)`, where Python `==` on the frozen dataclasses is
structural equality. -/
def compare_results (expected actual : ExecutionResult) : Bool :=
  same_result_type expected actual &&
    (!is_success expected || decide (expected = actual))

/-- Value semantics of an expression on the machine, used to state the
compiler-correctness lemmas: the single value that executing the compiled
code of the expression pushes. -/
def exprValue : Expr → Nat
  | .Const value => value
  | .Add left right => (exprValue left + exprValue right) % 2 ^ 64
  | .Mul left right => (exprValue left * exprValue right) % 2 ^ 64
  | .Byte value index =>
    if 8 ≤ exprValue index then 0
    else (to_bytes_be 8 (exprValue value)).getD (exprValue index) 0

/-! ### Byte-representation lemmas -/

theorem to_bytes_be_four (v : Nat) :
    to_bytes_be 4 v = [v / 2 ^ 24 % 256, v / 2 ^ 16 % 256, v / 2 ^ 8 % 256, v % 256] := by
  simp [to_bytes_be, Nat.div_div_eq_div_mul]

theorem to_bytes_be_eight (x : Nat) :
    to_bytes_be 8 x = [x / 2 ^ 56 % 256, x / 2 ^ 48 % 256, x / 2 ^ 40 % 256,
      x / 2 ^ 32 % 256, x / 2 ^ 24 % 256, x / 2 ^ 16 % 256, x / 2 ^ 8 % 256, x % 256] := by
  simp [to_bytes_be, Nat.div_div_eq_div_mul]

theorem from_bytes_be_four (b₁ b₂ b₃ b₄ : Nat) :
    from_bytes_be [b₁, b₂, b₃, b₄] = ((256 * b₁ + b₂) * 256 + b₃) * 256 + b₄ := by
  simp [from_bytes_be, List.foldl]
  ring

theorem from_bytes_be_to_bytes_be_four (v : Nat) (h : v ≤ UINT32_MAX) :
    from_bytes_be (to_bytes_be 4 v) = v := by
  rw [to_bytes_be_four, from_bytes_be_four]
  unfold UINT32_MAX at h
  omega

theorem to_bytes_be_from_bytes_be_four (b₁ b₂ b₃ b₄ : Nat)
    (h₁ : b₁ < 256) (h₂ : b₂ < 256) (h₃ : b₃ < 256) (h₄ : b₄ < 256) :
    to_bytes_be 4 (from_bytes_be [b₁, b₂, b₃, b₄]) = [b₁, b₂, b₃, b₄] := by
  rw [from_bytes_be_four, to_bytes_be_four]
  refine List.cons_eq_cons.mpr ⟨?_, List.cons_eq_cons.mpr ⟨?_, List.cons_eq_cons.mpr ⟨?_, ?_⟩⟩⟩ <;>
    · norm_num
      omega

theorem getD_to_bytes_be_eight (x i : Nat) (h : i < 8) :
    ((to_bytes_be 8 x)[i]?).getD 0 = x / 2 ^ (8 * (7 - i)) % 256 := by
  interval_cases i <;> simp [to_bytes_be_eight]

/-! ### Claims C1, C2: ADD/MUL and BYTE single-step semantics -/

/-- Claim C1: on every machine state of depth ≥ 2 (top element `b`, next
element `a`), `ADD` pushes `(a + b) % 2 ^ 64` and `MUL` pushes
`(a * b) % 2 ^ 64` onto the remaining stack; both results lie in
`[0, 2 ^ 64 - 1]`; `ADD` on `(2 ^ 64 - 1, 2)` yields 1 and `MUL` on the same
pair yields `2 ^ 64 - 2`; on every state of depth < 2 both instructions fail
with `StackUnderflow`. -/
theorem add_mul_semantics :
    (∀ (b a : Nat) (rest : List Nat),
      execute (b :: a :: rest) .ADD = .ok ((a + b) % 2 ^ 64 :: rest) ∧
      execute (b :: a :: rest) .MUL = .ok ((a * b) % 2 ^ 64 :: rest) ∧
      (a + b) % 2 ^ 64 ≤ UINT64_MAX ∧ (a * b) % 2 ^ 64 ≤ UINT64_MAX) ∧
    execute [2, 2 ^ 64 - 1] .ADD = .ok [1] ∧
    execute [2, 2 ^ 64 - 1] .MUL = .ok [2 ^ 64 - 2] ∧
    (∀ state : List Nat, state.length < 2 →
      execute state .ADD = .error .StackUnderflow ∧
      execute state .MUL = .error .StackUnderflow) := by
  refine ⟨fun b a rest => ⟨?_, ?_, ?_, ?_⟩, by norm_num [execute], by norm_num [execute], ?_⟩
  · simp [execute, Nat.add_comm]
  · simp [execute, Nat.mul_comm]
  · have := Nat.mod_lt (a + b) (show 0 < 2 ^ 64 by norm_num)
    unfold UINT64_MAX
    omega
  · have := Nat.mod_lt (a * b) (show 0 < 2 ^ 64 by norm_num)
    unfold UINT64_MAX
    omega
  · rintro (_ | ⟨x, _ | ⟨y, t⟩⟩) hlen
    · exact ⟨rfl, rfl⟩
    · exact ⟨rfl, rfl⟩
    · simp only [List.length_cons] at hlen
      omega

/-- Witness for C1 at concrete inputs. -/
theorem add_mul_semantics_witness :
    execute [5, 7] .ADD = .ok [(7 + 5) % 2 ^ 64 ] ∧
    execute [9] .ADD = .error .StackUnderflow := by
  exact ⟨(add_mul_semantics.1 5 7 []).1, (add_mul_semantics.2.2.2 [9] (by decide)).1⟩

/-- Claim C2: on every machine state of depth ≥ 2 (top element `i`, next
element `x`, with `x` a 64-bit value), `BYTE` pushes 0 when `i ≥ 8` and
otherwise the `i`-th big-endian byte of `x` (index 0 the most-significant,
index 7 the least-significant), a value in `[0, 255]`; `BYTE` on the spec's
examples gives `0x12345678, 7 ↦ 0x78` and `0x12345678, 4 ↦ 0x12`; on every
state of depth < 2 `BYTE` fails with `StackUnderflow`. -/
theorem byte_semantics :
    (∀ (i x : Nat) (rest : List Nat), x ≤ UINT64_MAX →
      execute (i :: x :: rest) .BYTE =
        .ok ((if 8 ≤ i then 0 else x / 2 ^ (8 * (7 - i)) % 256) :: rest) ∧
      x / 2 ^ (8 * (7 - i)) % 256 ≤ 255) ∧
    execute [7, 0x12345678] .BYTE = .ok [0x78] ∧
    execute [4, 0x12345678] .BYTE = .ok [0x12] ∧
    (∀ state : List Nat, state.length < 2 →
      execute state .BYTE = .error .StackUnderflow) := by
  refine ⟨fun i x rest _ => ⟨?_, ?_⟩, by norm_num [execute, to_bytes_be],
    by norm_num [execute, to_bytes_be], ?_⟩
  · by_cases h8 : 8 ≤ i
    · simp [execute, h8]
    · simp [execute, h8, getD_to_bytes_be_eight x i (by omega)]
  · have := Nat.mod_lt (x / 2 ^ (8 * (7 - i))) (show 0 < 256 by norm_num)
    omega
  · rintro (_ | ⟨x, _ | ⟨y, t⟩⟩) hlen
    · rfl
    · rfl
    · simp only [List.length_cons] at hlen
      omega

/-- Witness for C2 at concrete inputs. -/
theorem byte_semantics_witness :
    execute [1, 0xABCD] .BYTE =
      .ok [(if 8 ≤ 1 then 0 else 0xABCD / 2 ^ (8 * (7 - 1)) % 256)] ∧
    execute [] .BYTE = .error .StackUnderflow := by
  exact ⟨(byte_semantics.1 1 0xABCD [] (by norm_num [UINT64_MAX])).1,
    byte_semantics.2.2.2 [] (by decide)⟩

/-! ### Claim C5: the differential-comparison predicate -/

/-- Claim C5: `compare_results expected actual` is true iff both outcomes are
built by the same variant and, when both are `Success`, their stacks are
equal element-for-element in order; an `ExceptionThrown` matches any
`ExceptionThrown` and a `Crash` matches any `Crash` regardless of the
message text. -/
theorem compare_results_iff (expected actual : ExecutionResult) :
    compare_results expected actual = true ↔
      (match expected, actual with
       | .Success s, .Success t => s = t
       | .ExceptionThrown _, .ExceptionThrown _ => True
       | .Crash _, .Crash _ => True
       | _, _ => False) := by
  cases expected <;> cases actual <;>
    simp [compare_results, same_result_type, is_success]

/-! ### Codec lemmas -/

theorem serialize_instruction_length_pos (instr : Instr) :
    1 ≤ (serialize_instruction instr).length := by
  cases instr <;> simp [serialize_instruction, to_bytes_be_four]

theorem getD_of_drop_eq_cons (data : List Nat) (offset b : Nat) (rest : List Nat)
    (h : data.drop offset = b :: rest) : data.getD offset 0 = b := by
  have h1 := List.getElem?_drop data offset 0
  rw [h] at h1
  have h0 : data[offset]? = some b := by simpa using h1.symm
  simp [List.getD_eq_getElem?_getD, h0]

/-- Decoding at an offset whose suffix is a well-formed instruction encoding
followed by anything recovers that instruction and advances past it. -/
theorem deserialize_instruction_of_drop (data : List Nat) (offset : Nat) (instr : Instr)
    (rest : List Nat) (hwf : instr_wf instr = true)
    (hdrop : data.drop offset = serialize_instruction instr ++ rest) :
    deserialize_instruction data offset =
      .ok (instr, offset + (serialize_instruction instr).length) := by
  have hlt : offset < data.length := by
    by_contra h
    push_neg at h
    rw [List.drop_eq_nil_of_le h] at hdrop
    cases instr <;> simp [serialize_instruction] at hdrop
  cases instr with
  | PUSH4 value =>
    have hv : value ≤ UINT32_MAX := of_decide_eq_true hwf
    have hdrop' : data.drop offset = OP_PUSH4 :: (to_bytes_be 4 value ++ rest) := by
      simpa [serialize_instruction] using hdrop
    have hop : data.getD offset 0 = OP_PUSH4 := getD_of_drop_eq_cons _ _ _ _ hdrop'
    have hlen5 : offset + 5 ≤ data.length := by
      have hlen := congrArg List.length hdrop'
      rw [List.length_drop] at hlen
      simp [to_bytes_be_four] at hlen
      omega
    have htake : (data.drop (offset + 1)).take 4 = to_bytes_be 4 value := by
      rw [← List.drop_drop 1 offset data, hdrop']
      exact List.take_left' (by simp [to_bytes_be_four])
    simp only [deserialize_instruction, hop]
    rw [if_neg (by omega), if_pos trivial, if_neg (by omega), htake,
      from_bytes_be_to_bytes_be_four value hv]
    simp [serialize_instruction, to_bytes_be_four]
  | ADD =>
    have hdrop' : data.drop offset = OP_ADD :: rest := by
      simpa [serialize_instruction] using hdrop
    have hop : data.getD offset 0 = OP_ADD := getD_of_drop_eq_cons _ _ _ _ hdrop'
    simp only [deserialize_instruction, hop]
    rw [if_neg (by omega), if_neg (by decide), if_pos trivial]
    simp [serialize_instruction]
  | MUL =>
    have hdrop' : data.drop offset = OP_MUL :: rest := by
      simpa [serialize_instruction] using hdrop
    have hop : data.getD offset 0 = OP_MUL := getD_of_drop_eq_cons _ _ _ _ hdrop'
    simp only [deserialize_instruction, hop]
    rw [if_neg (by omega), if_neg (by decide), if_neg (by decide), if_pos trivial]
    simp [serialize_instruction]
  | BYTE =>
    have hdrop' : data.drop offset = OP_BYTE :: rest := by
      simpa [serialize_instruction] using hdrop
    have hop : data.getD offset 0 = OP_BYTE := getD_of_drop_eq_cons _ _ _ _ hdrop'
    simp only [deserialize_instruction, hop]
    rw [if_neg (by omega), if_neg (by decide), if_neg (by decide), if_neg (by decide),
      if_pos trivial]
    simp [serialize_instruction]

/-- Round-trip at the decode-loop level: decoding a suffix that is the
serialization of a well-formed instruction list recovers that list. -/
theorem deserialize_program_aux_serialize (P : List Instr) :
    ∀ (fuel : Nat) (data : List Nat) (offset : Nat),
      (∀ instr ∈ P, instr_wf instr = true) →
      data.drop offset = serialize_program P →
      data.length - offset ≤ fuel →
      deserialize_program_aux fuel data offset = .ok P := by
  induction P with
  | nil =>
    intro fuel data offset _ hdrop _
    have hoff : data.length ≤ offset := by
      have hlen := congrArg List.length hdrop
      rw [List.length_drop] at hlen
      simp [serialize_program] at hlen
      omega
    cases fuel with
    | zero => simp [deserialize_program_aux, Nat.not_lt.mpr hoff]
    | succ fuel => simp [deserialize_program_aux, Nat.not_lt.mpr hoff]
  | cons instr P ih =>
    intro fuel data offset hwf hdrop hfuel
    have hdrop' : data.drop offset = serialize_instruction instr ++ serialize_program P := by
      simpa [serialize_program] using hdrop
    have hlt : offset < data.length := by
      have hlen := congrArg List.length hdrop'
      rw [List.length_drop, List.length_append] at hlen
      have := serialize_instruction_length_pos instr
      omega
    have hdi := deserialize_instruction_of_drop data offset instr (serialize_program P)
      (hwf instr (by simp)) hdrop'
    cases fuel with
    | zero => omega
    | succ fuel =>
      have hrec := ih fuel data (offset + (serialize_instruction instr).length)
        (fun i hi => hwf i (by simp [hi]))
        (by rw [← List.drop_drop, hdrop']; exact List.drop_left _ _)
        (by have := serialize_instruction_length_pos instr; omega)
      simp [deserialize_program_aux, if_pos hlt, hdi, hrec]

/-! ### Claim C4: encoder/decoder round-trip -/

/-- Claim C4: for every instruction list `P` whose `PUSH4` values lie in
`[0, 2 ^ 32 - 1]`, decoding the encoding of `P` returns exactly `P`. -/
theorem serialize_deserialize_roundtrip (P : List Instr)
    (hwf : ∀ instr ∈ P, instr_wf instr = true) :
    deserialize_program (serialize_program P) = .ok P :=
  deserialize_program_aux_serialize P _ _ 0 hwf (by simp) (by omega)

/-- Witness for C4 at a concrete program. -/
theorem serialize_deserialize_roundtrip_witness :
    deserialize_program (serialize_program [.PUSH4 3, .PUSH4 0xFFFFFFFF, .ADD, .MUL, .BYTE]) =
      .ok [.PUSH4 3, .PUSH4 0xFFFFFFFF, .ADD, .MUL, .BYTE] :=
  serialize_deserialize_roundtrip [.PUSH4 3, .PUSH4 0xFFFFFFFF, .ADD, .MUL, .BYTE] (by decide)

/-! ### Decode totality lemmas -/

theorem drop_eq_getD_cons (data : List Nat) (offset : Nat) (h : offset < data.length) :
    data.drop offset = data.getD offset 0 :: data.drop (offset + 1) := by
  rw [List.drop_eq_getElem_cons h, List.getD_eq_getElem data 0 h]

theorem deserialize_instruction_err (data : List Nat) (offset : Nat) (e : VMError)
    (h : deserialize_instruction data offset = .error e) : e = .InvalidInstruction := by
  simp only [deserialize_instruction] at h
  split_ifs at h <;> simp_all

theorem to_bytes_be_from_bytes_be_of_len_four (bs : List Nat) (hlen : bs.length = 4)
    (hlt : ∀ b ∈ bs, b < 256) : to_bytes_be 4 (from_bytes_be bs) = bs := by
  rcases bs with _ | ⟨c₀, bs⟩
  · simp at hlen
  rcases bs with _ | ⟨c₁, bs⟩
  · simp at hlen
  rcases bs with _ | ⟨c₂, bs⟩
  · simp at hlen
  rcases bs with _ | ⟨c₃, bs⟩
  · simp at hlen
  rcases bs with _ | ⟨c₄, bs⟩
  · exact to_bytes_be_from_bytes_be_four c₀ c₁ c₂ c₃ (hlt _ (by simp)) (hlt _ (by simp))
      (hlt _ (by simp)) (hlt _ (by simp))
  · simp only [List.length_cons] at hlen
    omega

/-- A successful single-instruction decode consumed at least one byte, stayed
inside the buffer, and re-serializing the decoded instruction reproduces
exactly the consumed bytes. -/
theorem deserialize_instruction_ok_inv (data : List Nat) (offset : Nat) (instr : Instr)
    (offset' : Nat) (hbytes : ∀ b ∈ data, b < 256)
    (h : deserialize_instruction data offset = .ok (instr, offset')) :
    offset < offset' ∧ offset' ≤ data.length ∧
      serialize_instruction instr = (data.drop offset).take (offset' - offset) := by
  simp only [deserialize_instruction] at h
  split_ifs at h with h1 h2 h3 h4 h5 h6
  · -- PUSH4 branch
    simp only [Except.ok.injEq, Prod.mk.injEq] at h
    obtain ⟨hinstr, hoff⟩ := h
    subst hinstr hoff
    refine ⟨by omega, by omega, ?_⟩
    have h5eq : offset + 5 - offset = 5 := by omega
    rw [h5eq, drop_eq_getD_cons data offset (by omega), List.take_succ_cons, h2,
      serialize_instruction]
    congr 1
    exact to_bytes_be_from_bytes_be_of_len_four _
      (by rw [List.length_take, List.length_drop]; omega)
      (fun b hb => hbytes b (List.drop_subset _ _ (List.take_subset _ _ hb)))
  · -- ADD branch
    simp only [Except.ok.injEq, Prod.mk.injEq] at h
    obtain ⟨hinstr, hoff⟩ := h
    subst hinstr hoff
    refine ⟨by omega, by omega, ?_⟩
    have h1eq : offset + 1 - offset = 1 := by omega
    rw [h1eq, drop_eq_getD_cons data offset (by omega), List.take_succ_cons, h4,
      List.take_zero, serialize_instruction]
  · -- MUL branch
    simp only [Except.ok.injEq, Prod.mk.injEq] at h
    obtain ⟨hinstr, hoff⟩ := h
    subst hinstr hoff
    refine ⟨by omega, by omega, ?_⟩
    have h1eq : offset + 1 - offset = 1 := by omega
    rw [h1eq, drop_eq_getD_cons data offset (by omega), List.take_succ_cons, h5,
      List.take_zero, serialize_instruction]
  · -- BYTE branch
    simp only [Except.ok.injEq, Prod.mk.injEq] at h
    obtain ⟨hinstr, hoff⟩ := h
    subst hinstr hoff
    refine ⟨by omega, by omega, ?_⟩
    have h1eq : offset + 1 - offset = 1 := by omega
    rw [h1eq, drop_eq_getD_cons data offset (by omega), List.take_succ_cons, h6,
      List.take_zero, serialize_instruction]

/-- Decode totality at the decode-loop level: on a byte buffer the loop
either fails with `InvalidInstruction` or returns an instruction list whose
serialization is exactly the undecoded suffix — never a partial list. -/
theorem deserialize_program_aux_total :
    ∀ (fuel : Nat) (data : List Nat) (offset : Nat),
      (∀ b ∈ data, b < 256) →
      offset ≤ data.length →
      data.length - offset ≤ fuel →
      deserialize_program_aux fuel data offset = .error .InvalidInstruction ∨
      ∃ instrs, deserialize_program_aux fuel data offset = .ok instrs ∧
        serialize_program instrs = data.drop offset := by
  intro fuel
  induction fuel with
  | zero =>
    intro data offset _ hle hfuel
    right
    refine ⟨[], by simp [deserialize_program_aux]; omega, ?_⟩
    rw [List.drop_eq_nil_of_le (by omega)]
    simp [serialize_program]
  | succ fuel ih =>
    intro data offset hbytes hle hfuel
    by_cases hlt : offset < data.length
    · cases hd : deserialize_instruction data offset with
      | error e =>
        left
        have he := deserialize_instruction_err _ _ _ hd
        subst he
        simp [deserialize_program_aux, hlt, hd]
      | ok p =>
        obtain ⟨instr, offset'⟩ := p
        obtain ⟨h1, h2, h3⟩ := deserialize_instruction_ok_inv data offset instr offset' hbytes hd
        rcases ih data offset' hbytes h2 (by omega) with herr | ⟨instrs, hok, hser⟩
        · left
          simp [deserialize_program_aux, hlt, hd, herr]
        · right
          refine ⟨instr :: instrs, by simp [deserialize_program_aux, hlt, hd, hok], ?_⟩
          have hcons : serialize_program (instr :: instrs) =
              serialize_instruction instr ++ serialize_program instrs := by
            simp [serialize_program]
          rw [hcons, hser, h3]
          have hdd : data.drop offset' = (data.drop offset).drop (offset' - offset) := by
            rw [List.drop_drop]
            congr 1
            omega
          rw [hdd, List.take_append_drop]
    · right
      refine ⟨[], by simp [deserialize_program_aux, hlt], ?_⟩
      rw [List.drop_eq_nil_of_le (by omega)]
      simp [serialize_program]

/-! ### Claim C3: whole-program decode is all-or-nothing -/

/-- Claim C3: the empty buffer decodes to the empty program; for every byte
buffer, whole-program decode either returns an instruction list whose
serialization is exactly the whole buffer (it consumed the buffer exactly —
never a partial list) or fails with `InvalidInstruction`; and a single
instruction decode fails when the opcode byte is none of
`0x01/0x02/0x03/0x04`, or is `0x01` with fewer than 4 operand bytes left. -/
theorem decode_all_or_nothing :
    deserialize_program [] = .ok [] ∧
    (∀ data : List Nat, (∀ b ∈ data, b < 256) →
      (∃ instrs, deserialize_program data = .ok instrs ∧ serialize_program instrs = data) ∨
      deserialize_program data = .error .InvalidInstruction) ∧
    (∀ (data : List Nat) (offset : Nat), offset < data.length →
      (data.getD offset 0 ∉ [OP_PUSH4, OP_ADD, OP_MUL, OP_BYTE] →
        deserialize_instruction data offset = .error .InvalidInstruction) ∧
      (data.getD offset 0 = OP_PUSH4 → data.length < offset + 5 →
        deserialize_instruction data offset = .error .InvalidInstruction)) := by
  refine ⟨rfl, ?_, ?_⟩
  · intro data hbytes
    rcases deserialize_program_aux_total data.length data 0 hbytes (by omega) (by omega) with
      herr | ⟨instrs, hok, hser⟩
    · right
      exact herr
    · left
      exact ⟨instrs, hok, by simpa using hser⟩
  · intro data offset hlt
    constructor
    · intro hno
      have k1 : data.getD offset 0 ≠ OP_PUSH4 := fun hc => hno (by rw [hc]; simp)
      have k2 : data.getD offset 0 ≠ OP_ADD := fun hc => hno (by rw [hc]; simp)
      have k3 : data.getD offset 0 ≠ OP_MUL := fun hc => hno (by rw [hc]; simp)
      have k4 : data.getD offset 0 ≠ OP_BYTE := fun hc => hno (by rw [hc]; simp)
      simp only [deserialize_instruction]
      rw [if_neg (by omega), if_neg k1, if_neg k2, if_neg k3, if_neg k4]
    · intro hop hlen
      simp only [deserialize_instruction, hop]
      rw [if_neg (by omega), if_pos trivial, if_pos hlen]

/-- Witness for C3 at concrete buffers, including the spec's literal
scenarios `0xFF` (unknown opcode) and `0x01 0x00 0x00` (truncated PUSH4). -/
theorem decode_all_or_nothing_witness :
    ((∃ instrs, deserialize_program [0x02, 0x03] = .ok instrs ∧
        serialize_program instrs = [0x02, 0x03]) ∨
      deserialize_program [0x02, 0x03] = .error .InvalidInstruction) ∧
    deserialize_instruction [0xFF] 0 = .error .InvalidInstruction ∧
    deserialize_instruction [0x01, 0x00, 0x00] 0 = .error .InvalidInstruction := by
  exact ⟨decode_all_or_nothing.2.1 [0x02, 0x03] (by decide),
    (decode_all_or_nothing.2.2 [0xFF] 0 (by decide)).1 (by decide),
    (decode_all_or_nothing.2.2 [0x01, 0x00, 0x00] 0 (by decide)).2 (by decide) (by decide)⟩

/-! ### Compiler-correctness lemmas -/

theorem execute_program_append (A B : List Instr) (s : List Nat) :
    execute_program (A ++ B) s =
      match execute_program A s with
      | .error e => .error e
      | .ok s' => execute_program B s' := by
  induction A generalizing s with
  | nil => simp [execute_program]
  | cons instr A ih =>
    simp only [List.cons_append, execute_program]
    cases execute s instr with
    | error e => rfl
    | ok s' => exact ih s'

/-- Executing the post-order compilation of an expression on any stack pushes
exactly the expression's machine value. -/
theorem compile_expr_execute (e : Expr) :
    ∀ s : List Nat, execute_program (compile_expr_to_instructions e) s =
      .ok (exprValue e :: s) := by
  induction e with
  | Const value =>
    intro s
    simp [compile_expr_to_instructions, execute_program, execute, exprValue]
  | Add left right ihl ihr =>
    intro s
    simp only [compile_expr_to_instructions]
    rw [execute_program_append, execute_program_append, ihl]
    simp [ihr, execute_program, execute, exprValue, Nat.add_comm]
  | Mul left right ihl ihr =>
    intro s
    simp only [compile_expr_to_instructions]
    rw [execute_program_append, execute_program_append, ihl]
    simp [ihr, execute_program, execute, exprValue, Nat.mul_comm]
  | Byte value index ihv ihi =>
    intro s
    simp only [compile_expr_to_instructions]
    rw [execute_program_append, execute_program_append, ihv]
    by_cases h8 : 8 ≤ exprValue index <;>
      simp [ihi, execute_program, execute, exprValue, h8]

/-- Every instruction of the compilation of a well-formed expression is
well-formed. -/
theorem compile_expr_wf (e : Expr) (h : expr_wf e = true) :
    ∀ instr ∈ compile_expr_to_instructions e, instr_wf instr = true := by
  induction e with
  | Const value =>
    intro instr hi
    simp only [compile_expr_to_instructions, List.mem_singleton] at hi
    subst hi
    simpa [instr_wf, expr_wf] using h
  | Add left right ihl ihr =>
    intro instr hi
    simp only [expr_wf, Bool.and_eq_true] at h
    simp only [compile_expr_to_instructions, List.append_assoc, List.mem_append,
      List.mem_singleton] at hi
    rcases hi with hi | hi | hi
    · exact ihl h.1 instr hi
    · exact ihr h.2 instr hi
    · subst hi; rfl
  | Mul left right ihl ihr =>
    intro instr hi
    simp only [expr_wf, Bool.and_eq_true] at h
    simp only [compile_expr_to_instructions, List.append_assoc, List.mem_append,
      List.mem_singleton] at hi
    rcases hi with hi | hi | hi
    · exact ihl h.1 instr hi
    · exact ihr h.2 instr hi
    · subst hi; rfl
  | Byte value index ihv ihi =>
    intro instr hi
    simp only [expr_wf, Bool.and_eq_true] at h
    simp only [compile_expr_to_instructions, List.append_assoc, List.mem_append,
      List.mem_singleton] at hi
    rcases hi with hi | hi | hi
    · exact ihv h.1 instr hi
    · exact ihi h.2 instr hi
    · subst hi; rfl

/-- The machine value of a well-formed expression is a 64-bit value. -/
theorem exprValue_le (e : Expr) (h : expr_wf e = true) : exprValue e ≤ UINT64_MAX := by
  cases e with
  | Const value =>
    simp only [expr_wf, decide_eq_true_eq] at h
    simp only [exprValue]
    unfold UINT32_MAX at h
    unfold UINT64_MAX
    omega
  | Add left right =>
    have := Nat.mod_lt (exprValue left + exprValue right) (show 0 < 2 ^ 64 by norm_num)
    unfold UINT64_MAX
    simp only [exprValue]
    omega
  | Mul left right =>
    have := Nat.mod_lt (exprValue left * exprValue right) (show 0 < 2 ^ 64 by norm_num)
    unfold UINT64_MAX
    simp only [exprValue]
    omega
  | Byte value index =>
    simp only [exprValue]
    split_ifs with h8
    · unfold UINT64_MAX
      omega
    · rw [List.getD_eq_getElem?_getD, getD_to_bytes_be_eight _ _ (by omega)]
      have := Nat.mod_lt (exprValue value / 2 ^ (8 * (7 - exprValue index)))
        (show 0 < 256 by norm_num)
      unfold UINT64_MAX
      omega

/-! ### Claim C6: compiled expressions decode and never underflow -/

/-- Claim C6: for every well-formed expression tree, the compiled bytecode
decodes successfully back to the compiled instruction list, and executing
that instruction list from the empty initial stack succeeds — in particular
the `StackUnderflow` branches of `ADD`, `MUL` and `BYTE` are never taken. -/
theorem compiled_expr_decodes_and_no_underflow (e : Expr) (h : expr_wf e = true) :
    deserialize_program (compile_expr e) = .ok (compile_expr_to_instructions e) ∧
    ∃ stack, execute_program (compile_expr_to_instructions e) [] = .ok stack :=
  ⟨deserialize_program_aux_serialize (compile_expr_to_instructions e) _ _ 0
      (compile_expr_wf e h) (by simp [compile_expr]) (by omega),
    ⟨[exprValue e], compile_expr_execute e []⟩⟩

/-- Witness for C6 at a concrete expression. -/
theorem compiled_expr_decodes_and_no_underflow_witness :
    deserialize_program (compile_expr (.Byte (.Add (.Const 3) (.Const 4)) (.Const 7))) =
      .ok (compile_expr_to_instructions (.Byte (.Add (.Const 3) (.Const 4)) (.Const 7))) ∧
    ∃ stack, execute_program
      (compile_expr_to_instructions (.Byte (.Add (.Const 3) (.Const 4)) (.Const 7))) [] =
        .ok stack :=
  compiled_expr_decodes_and_no_underflow (.Byte (.Add (.Const 3) (.Const 4)) (.Const 7))
    (by decide)

/-! ### Claim C10: compiled expressions produce exactly one result -/

/-- Claim C10: executing the compiled instruction list of a well-formed
expression tree from the empty initial stack succeeds with a final stack of
exactly one element, an unsigned 64-bit value. -/
theorem compiled_expr_single_result (e : Expr) (h : expr_wf e = true) :
    ∃ r, execute_program (compile_expr_to_instructions e) [] = .ok [r] ∧
      r ≤ UINT64_MAX :=
  ⟨exprValue e, compile_expr_execute e [], exprValue_le e h⟩

/-- Witness for C10 at a concrete expression. -/
theorem compiled_expr_single_result_witness :
    ∃ r, execute_program
      (compile_expr_to_instructions (.Mul (.Const 6) (.Const 7))) [] = .ok [r] ∧
      r ≤ UINT64_MAX :=
  compiled_expr_single_result (.Mul (.Const 6) (.Const 7)) (by decide)

/-! ### Enumeration lemmas -/

/-- The recursive case of the enumeration, phrased through the Cartesian
product of the depth-`d` enumeration with itself. -/
theorem enumerate_expressions_succ (depth : Nat) (constants : List Nat) :
    enumerate_expressions (depth + 1) constants =
      ((enumerate_expressions depth constants).product
          (enumerate_expressions depth constants)).flatMap
        (fun p => [.Add p.1 p.2, .Mul p.1 p.2, .Byte p.1 p.2]) ++
      constants.map .Const := by
  simp only [enumerate_expressions]
  simp [List.product, List.flatMap_assoc, List.flatMap_map]

/-! ### Claim C7: enumeration yields -/

/-- Claim C7: depth 0 yields exactly one `Const c` per `c` in `constants`, in
order (so `enumerate_expressions 0 [0,1,2]` is exactly the three constants);
depth `d+1` yields, for every ordered pair of the full depth-`d` enumeration,
one `Add`, one `Mul` and one `Byte` of the pair, followed by one `Const c`
per `c` in `constants`. -/
theorem enumerate_expressions_shape :
    (∀ constants : List Nat, enumerate_expressions 0 constants = constants.map .Const) ∧
    enumerate_expressions 0 [0, 1, 2] = [.Const 0, .Const 1, .Const 2] ∧
    (∀ (depth : Nat) (constants : List Nat),
      enumerate_expressions (depth + 1) constants =
        ((enumerate_expressions depth constants).product
            (enumerate_expressions depth constants)).flatMap
          (fun p => [.Add p.1 p.2, .Mul p.1 p.2, .Byte p.1 p.2]) ++
        constants.map .Const) :=
  ⟨fun _ => rfl, rfl, enumerate_expressions_succ⟩

/-! ### Claim C8: determinism and duplicate-freedom (corrected) -/

/-- Counterexample to claim C8 as stated: quantified over EVERY constants
list, duplicate-freedom fails — a constants list that itself repeats a value
makes the depth-0 enumeration repeat a structurally identical `Const`. -/
theorem enumerate_expressions_dup_counterexample :
    enumerate_expressions 0 [0, 0] = [.Const 0, .Const 0] ∧
    ¬ (enumerate_expressions 0 [0, 0]).Nodup :=
  ⟨rfl, by decide⟩

/-- Claim C8 as amended: two calls with identical arguments yield identical,
identically-ordered sequences, and — provided the constants list itself has
no duplicate values — no two yielded expressions are structurally
identical. -/
theorem enumerate_expressions_deterministic_nodup (depth : Nat) (constants : List Nat)
    (h : constants.Nodup) :
    enumerate_expressions depth constants = enumerate_expressions depth constants ∧
    (enumerate_expressions depth constants).Nodup := by
  refine ⟨rfl, ?_⟩
  induction depth with
  | zero =>
    simp only [enumerate_expressions]
    exact List.Nodup.map (fun a b hab => Expr.Const.inj hab) h
  | succ depth ih =>
    rw [enumerate_expressions_succ]
    refine List.Nodup.append ?_
      (List.Nodup.map (fun a b hab => Expr.Const.inj hab) h) ?_
    · rw [List.nodup_flatMap]
      refine ⟨fun p _ => by simp, ?_⟩
      have hprod := List.Nodup.product ih ih
      refine hprod.imp ?_
      intro p q hne x hxp hxq
      simp only [List.mem_cons, List.not_mem_nil, or_false] at hxp hxq
      rcases hxp with rfl | rfl | rfl <;> rcases hxq with h' | h' | h' <;>
        first
          | exact Expr.noConfusion h'
          | exact hne (Prod.ext (Expr.Add.inj h').1 (Expr.Add.inj h').2)
          | exact hne (Prod.ext (Expr.Mul.inj h').1 (Expr.Mul.inj h').2)
          | exact hne (Prod.ext (Expr.Byte.inj h').1 (Expr.Byte.inj h').2)
    · intro x hx1 hx2
      simp only [List.mem_flatMap, List.mem_cons, List.not_mem_nil, or_false] at hx1
      obtain ⟨p, _, hx⟩ := hx1
      simp only [List.mem_map] at hx2
      obtain ⟨c, _, rfl⟩ := hx2
      rcases hx with h' | h' | h' <;> exact Expr.noConfusion h'

/-- Witness for the amended C8 at a concrete depth and constants list. -/
theorem enumerate_expressions_deterministic_nodup_witness :
    (enumerate_expressions 1 [0, 1]).Nodup :=
  (enumerate_expressions_deterministic_nodup 1 [0, 1] (by decide)).2

/-! ### Claim C9: the underflow suite -/

instance : DecidableEq (Except VMError (List Nat)) := fun x y =>
  match x, y with
  | .error e, .error f =>
    if h : e = f then .isTrue (by rw [h])
    else .isFalse (fun hc => h (Except.error.inj hc))
  | .ok a, .ok b =>
    if h : a = b then .isTrue (by rw [h])
    else .isFalse (fun hc => h (Except.ok.inj hc))
  | .error _, .ok _ => .isFalse (fun hc => Except.noConfusion hc)
  | .ok _, .error _ => .isFalse (fun hc => Except.noConfusion hc)

/-- Claim C9: every bytecode buffer yielded by
`enumerate_stack_underflow_tests` decodes successfully, and executing it on
the reference machine from the empty initial stack fails with
`StackUnderflow` — with zero exceptions. -/
theorem underflow_suite_all_underflow :
    ∀ bytecode ∈ enumerate_stack_underflow_tests,
      (deserialize_program bytecode).isOk = true ∧
      execute_bytecode bytecode [] = .error .StackUnderflow := by
  decide

/-- Witness for C9 at the first suite element. -/
theorem underflow_suite_all_underflow_witness :
    (deserialize_program (serialize_program [.ADD])).isOk = true ∧
    execute_bytecode (serialize_program [.ADD]) [] = .error .StackUnderflow :=
  underflow_suite_all_underflow (serialize_program [.ADD]) (by decide)

end SloppyVM
